import Mathlib

/-!
Verification of the zipcodetw core (`zipcodetw/util.py`): address
normalization and tokenization, standardization, rule matching, and the
two-index directory (precise / gradual) with its build and lookup
algorithms.  Strings are modelled as lists of Unicode characters; the
regular expressions of the source are unfolded into explicit scanners
with the same left-to-right, leftmost-alternative backtracking behavior.
-/

namespace ZipcodeTW

abbrev Chars := List Char

/-! ### Character classes used by `Address.TO_REPLACE_RE` -/

def isAscii (c : Char) : Bool := c.toNat ≤ 0x7F

def isAsciiDigit (c : Char) : Bool := '0' ≤ c && c ≤ '9'

/-- The Han digits 一..九 (without 十). -/
def hanDigits : Chars := ['一', '二', '三', '四', '五', '六', '七', '八', '九']

def isHanDigit (c : Char) : Bool := hanDigits.contains c

/-- The set `CHINESE_NUMERALS_SET`: the Han digits together with 十. -/
def chineseNumerals : Chars := hanDigits ++ ['十']

def isFullwidthDigit (c : Char) : Bool := '０' ≤ c && c ≤ '９'

/-- The unit characters a Han numeral must precede to be rewritten:
`[段路街巷弄號樓]`. -/
def numUnits : Chars := ['段', '路', '街', '巷', '弄', '號', '樓']

def isNumUnit (c : Char) : Bool := numUnits.contains c

def headIsNumUnit : Chars → Bool
  | c :: _ => isNumUnit c
  | [] => false

/-- The single-character alternative `[ 　,，台~-]` of `TO_REPLACE_RE`. -/
def singleClass : Chars := [' ', '　', ',', '，', '台', '~', '-']

def isSingleClass (c : Char) : Bool := singleClass.contains c

/-- The map `TO_REPLACE_MAP` restricted to single-character keys. -/
def mapChar (c : Char) : Option Char :=
  if c = '-' then some '之'
  else if c = '~' then some '之'
  else if c = '台' then some '臺'
  else if c = '１' then some '1'
  else if c = '２' then some '2'
  else if c = '３' then some '3'
  else if c = '４' then some '4'
  else if c = '５' then some '5'
  else if c = '６' then some '6'
  else if c = '７' then some '7'
  else if c = '８' then some '8'
  else if c = '９' then some '9'
  else if c = '０' then some '0'
  else if c = '一' then some '1'
  else if c = '二' then some '2'
  else if c = '三' then some '3'
  else if c = '四' then some '4'
  else if c = '五' then some '5'
  else if c = '六' then some '6'
  else if c = '七' then some '7'
  else if c = '八' then some '8'
  else if c = '九' then some '9'
  else none

/-- Does `cs` start with the two characters `a b`?  Used for the negative
lookahead `(?!大道|港務)`. -/
def startsWith2 (cs : Chars) (a b : Char) : Bool :=
  match cs with
  | c0 :: c1 :: _ => c0 = a && c1 = b
  | _ => false

/-- The alternative `[台臺]灣省?(?!大道|港務)`: greedy optional 省 first,
then the shorter match, each subject to the negative lookahead. -/
def lookTaiwan (cs : Chars) : Option (Chars × Chars) :=
  match cs with
  | c0 :: '灣' :: rest =>
    if c0 = '台' || c0 = '臺' then
      match rest with
      | '省' :: rest2 =>
        if !(startsWith2 rest2 '大' '道') && !(startsWith2 rest2 '港' '務') then
          some ([c0, '灣', '省'], rest2)
        else if !(startsWith2 rest '大' '道') && !(startsWith2 rest '港' '務') then
          some ([c0, '灣'], rest)
        else none
      | _ =>
        if !(startsWith2 rest '大' '道') && !(startsWith2 rest '港' '務') then
          some ([c0, '灣'], rest)
        else none
    else none
  | _ => none

/-- The alternative `(?<![臺台新竹])北市(?!場)`; `prev` is the character of
the original string just before the match position. -/
def northCity (prev : Option Char) (cs : Chars) : Option (Chars × Chars) :=
  match cs with
  | '北' :: '市' :: rest =>
    let prevOk : Bool :=
      match prev with
      | some p => !(p = '臺' || p = '台' || p = '新' || p = '竹')
      | none => true
    let nextOk : Bool :=
      match rest with
      | '場' :: _ => false
      | _ => true
    if prevOk && nextOk then some (['北', '市'], rest) else none
  | _ => none

/-- The alternative `[一二三四五六七八九]?十?[一二三四五六七八九](?=[段路街巷弄號樓])`
with the backtracking order of the regex engine (both optionals greedy). -/
def hanMatch : Chars → Option (Chars × Chars)
  | [] => none
  | c0 :: r0 =>
    if isHanDigit c0 then
      match r0 with
      | [] => none
      | c1 :: r1 =>
        if c1 = '十' then
          match r1 with
          | c2 :: r2 =>
            if isHanDigit c2 && headIsNumUnit r2 then some ([c0, '十', c2], r2)
            else none
          | [] => none
        else if isHanDigit c1 && headIsNumUnit r1 then some ([c0, c1], r1)
        else if isNumUnit c1 then some ([c0], r0)
        else none
    else if c0 = '十' then
      match r0 with
      | c1 :: r1 =>
        if isHanDigit c1 && headIsNumUnit r1 then some (['十', c1], r1)
        else none
      | [] => none
    else none

/-- One attempt of `TO_REPLACE_RE` at the current position: the six
alternatives in source order.  Returns the matched characters and the
remaining input.  `atStart` is true only at position 0 (for `^`). -/
def toReplaceMatch (atStart : Bool) (prev : Option Char) (cs : Chars) :
    Option (Chars × Chars) :=
  match cs with
  | [] => none
  | c0 :: rest =>
    if atStart && isAscii c0 then
      some (c0 :: rest.takeWhile isAscii, rest.dropWhile isAscii)
    else
      match lookTaiwan cs with
      | some fr => some fr
      | none =>
        if isSingleClass c0 then some ([c0], rest)
        else
          match northCity prev cs with
          | some fr => some fr
          | none =>
            if isFullwidthDigit c0 then some ([c0], rest)
            else hanMatch cs

/-- The `replace` callback of `Address.normalize`. -/
def replaceFound (found : Chars) : Chars :=
  match found with
  | ['北', '市'] => ['臺', '北', '市']
  | [c] =>
    match mapChar c with
    | some d => [d]
    | none => []
  | c0 :: restF =>
    if chineseNumerals.contains c0 then
      match c0 :: restF with
      | [_, b] =>
        match mapChar b with
        | some d => ['1', d]
        | none => []
      | [a, _, b] =>
        match mapChar a, mapChar b with
        | some da, some db => [da, db]
        | _, _ => []
      | _ => []
    else []
  | [] => []

/-- The function `Address.normalize`: a single left-to-right rewrite pass of
`TO_REPLACE_RE.sub(replace, s)`.  The fuel bounds the number of scan
steps; since every step consumes at least one character
(`toReplaceMatch_rest_lt`), fuel equal to the input length is always
sufficient and the fuel-exhausted branch is unreachable. -/
def normScan : Nat → Bool → Option Char → Chars → Chars
  | 0, _, _, cs => cs
  | _ + 1, _, _, [] => []
  | fuel + 1, atStart, prev, c :: rest =>
    match toReplaceMatch atStart prev (c :: rest) with
    | some (f, r) => replaceFound f ++ normScan fuel false f.getLast? r
    | none => c :: normScan fuel false (some c) rest

def normalize (s : Chars) : Chars := normScan s.length true none s

/-! ### Tokenizer (`Address.TOKEN_RE.findall`) -/

/-- An address token: the four capture groups `(no, subno, name, unit)` of
`TOKEN_RE`; a group that did not participate is the empty string. -/
structure Token where
  no : Chars
  subno : Chars
  name : Chars
  unit : Chars
deriving DecidableEq, Repr, Inhabited

/-- The full unit alphabet `[縣市鄉鎮市區村里鄰路街段巷弄號樓]`. -/
def unitAlphabet : Chars :=
  ['縣', '市', '鄉', '鎮', '區', '村', '里', '鄰', '路', '街', '段', '巷', '弄', '號', '樓']

def isUnitChar (c : Char) : Bool := unitAlphabet.contains c

/-- The units that may follow a numeric head: `[巷弄號樓]`. -/
def noUnits : Chars := ['巷', '弄', '號', '樓']

def isNoUnit (c : Char) : Bool := noUnits.contains c

def headIsNoUnit : Chars → Bool
  | c :: _ => isNoUnit c
  | [] => false

/-- Greedy `之\d+` at the current position, as used by the `subno` group. -/
def subnoTry (cs : Chars) : Option (Chars × Chars) :=
  match cs with
  | c :: r =>
    if c = '之' then
      if (r.takeWhile isAsciiDigit).isEmpty then none
      else some ('之' :: r.takeWhile isAsciiDigit, r.dropWhile isAsciiDigit)
    else none
  | [] => none

/-- Tail of the numeric head after backtracking `(之\d+)?` away: requires the
next character to be in `[巷弄號樓]` and consumes it as the unit. -/
def noTailBare (ds r1 : Chars) : Option (Token × Chars) :=
  match r1 with
  | u :: r2 =>
    if isNoUnit u then some ({ no := ds, subno := [], name := [], unit := [u] }, r2)
    else none
  | [] => none

/-- The numeric head branch `(?P<no>\d+)(?P<subno>之\d+)?(?=[巷弄號樓])`
followed by the unit group (which always consumes the looked-ahead unit). -/
def noBranch (cs : Chars) : Option (Token × Chars) :=
  let ds := cs.takeWhile isAsciiDigit
  if ds.isEmpty then none
  else
    let r1 := cs.dropWhile isAsciiDigit
    match subnoTry r1 with
    | some (sub, r2) =>
      match r2 with
      | u :: r3 =>
        if isNoUnit u then some ({ no := ds, subno := sub, name := [], unit := [u] }, r3)
        else noTailBare ds r1
      | [] => noTailBare ds r1
    | none => noTailBare ds r1

/-- The lookahead `(?=\d+(?:之\d+)?[巷弄號樓])` of the token tail. -/
def lookaheadNum (cs : Chars) : Bool :=
  let ds := cs.takeWhile isAsciiDigit
  if ds.isEmpty then false
  else
    let r1 := cs.dropWhile isAsciiDigit
    match subnoTry r1 with
    | some (_, r2) => headIsNoUnit r2
    | none => headIsNoUnit r1

/-- The token tail after a name head: a unit character, or the empty
alternative guarded by the numeric lookahead or end of string. -/
def nameTail (name : Chars) (r : Chars) : Option (Token × Chars) :=
  match r with
  | [] => some ({ no := [], subno := [], name := name, unit := [] }, [])
  | u :: r2 =>
    if isUnitChar u then some ({ no := [], subno := [], name := name, unit := [u] }, r2)
    else if lookaheadNum r then some ({ no := [], subno := [], name := name, unit := [] }, r)
    else none

/-- The non-greedy `.{2,}?` name: extend one character at a time until the
tail matches; `.` does not match a newline. -/
def nameGrow (acc : Chars) : Chars → Option (Token × Chars)
  | [] => nameTail acc []
  | c :: r2 =>
    match nameTail acc (c :: r2) with
    | some tr => some tr
    | none => if c = '\n' then none else nameGrow (acc ++ [c]) r2

/-- Start the `.{2,}?` branch: at least two (non-newline) characters. -/
def nameStart : Chars → Option (Token × Chars)
  | c0 :: c1 :: r2 => if c0 ≠ '\n' ∧ c1 ≠ '\n' then nameGrow [c0, c1] r2 else none
  | _ => none

/-- One attempt of `TOKEN_RE` at the current position. -/
def tokenMatch (cs : Chars) : Option (Token × Chars) :=
  match noBranch cs with
  | some tr => some tr
  | none =>
    match cs with
    | [] => none
    | c0 :: r0 =>
      if isAsciiDigit c0 then
        match nameTail [c0] r0 with
        | some tr => some tr
        | none => nameStart cs
      else nameStart cs

/-- The scan `TOKEN_RE.findall`: non-overlapping matches scanning left to right.
Every successful match consumes at least one character
(`tokenMatch_rest_lt`), so fuel equal to the input length suffices. -/
def tokenScan : Nat → Chars → List Token
  | 0, _ => []
  | _ + 1, [] => []
  | fuel + 1, c :: rest =>
    match tokenMatch (c :: rest) with
    | some (t, r) => t :: tokenScan fuel r
    | none => tokenScan fuel rest

/-- The function `Address.tokenize`. -/
def tokenize (s : Chars) : List Token := tokenScan (normalize s).length (normalize s)

/-! ### Token-level operations of `Address` -/

/-- Concatenation of the four fields of a token, as in `u''.join(token)`. -/
def flatToken (t : Token) : Chars := t.no ++ t.subno ++ t.name ++ t.unit

/-- The flattening `Address.flat()` over a whole token list. -/
def flatList (ts : List Token) : Chars := (ts.map flatToken).join

/-- The slice `Address.flat(i)`: the flattened first `i` tokens (`tokens[:i]`). -/
def flatTake (ts : List Token) (i : Nat) : Chars := flatList (ts.take i)

/-- The slice `Address.flat(f, l)`: the flattened slice `tokens[f:l]`. -/
def flatSlice (ts : List Token) (f l : Nat) : Chars := flatList ((ts.take l).drop f)

/-- Conversion `int(ds)` on a string of ASCII digits (`int('' or 0)` is 0). -/
def natOfDigits (ds : Chars) : Nat :=
  ds.foldl (fun n c => 10 * n + (c.toNat - '0'.toNat)) 0

/-- The accessor `Address.parse(idx)` with Python index semantics: a negative index
counts from the end, and an out-of-range index yields `(0, 0)`. -/
def parseTok (ts : List Token) (idx : Int) : Nat × Nat :=
  let n : Int := ts.length
  let j : Int := if idx < 0 then n + idx else idx
  if 0 ≤ j ∧ j < n then
    let t := ts.getD j.toNat default
    (natOfDigits t.no, natOfDigits (t.subno.drop 1))
  else (0, 0)

/-! ### `StandardAddress` -/

/-- The list `StandardAddress.LEVEL_UNITS_LIST`. -/
def levelUnitsList : List (List Char) := [['縣', '市'], ['區', '市', '鎮', '鄉'], ['路', '街', '里']]

/-- Index (within the given list) of the first token whose unit is `u`. -/
def scanFrom (u : Char) : List Token → Option Nat
  | [] => none
  | t :: ts => if t.unit = [u] then some 0 else (scanFrom u ts).map Nat.succ

/-- Absolute index of the first token at or after `start` whose unit is `u`. -/
def scanUnitIdx (ts : List Token) (start : Nat) (u : Char) : Option Nat :=
  (scanFrom u (ts.drop start)).map (start + ·)

/-- Try the units of one level group in order; the first unit found anywhere
at or after `start` wins (the inner `for`/`break` of the source). -/
def selectFromGroup (ts : List Token) (start : Nat) : List Char → Option Nat
  | [] => none
  | u :: us =>
    match scanUnitIdx ts start u with
    | some i => some i
    | none => selectFromGroup ts start us

/-- The group loop of `StandardAddress.__init__`: returns the selected
standard tokens and the final cursor `start_pos`. -/
def stdLoop (ts : List Token) : Nat → List (List Char) → List Token × Nat
  | start, [] => ([], start)
  | start, g :: gs =>
    match selectFromGroup ts start g with
    | some i =>
      let pf := stdLoop ts (i + 1) gs
      (ts.getD i default :: pf.1, pf.2)
    | none => stdLoop ts start gs

/-- The token reordering of `StandardAddress.__init__`. -/
def standardize (ts : List Token) : List Token :=
  let pf := stdLoop ts 0 levelUnitsList
  pf.1 ++ ts.drop pf.2

/-- Tokens of `StandardAddress(addr_str)`. -/
def standardTokens (s : Chars) : List Token := standardize (tokenize s)

/-! ### `Rule` -/

def headIsAsciiDigit : Chars → Bool
  | c :: _ => isAsciiDigit c
  | [] => false

def headIs : Chars → Char → Bool
  | c :: _, d => c = d
  | [], _ => false

/-- One attempt of `RULE_TOKEN_RE` at the current position, alternatives in
source order (so longer qualifiers win). -/
def ruleTokMatch (cs : Chars) : Option (Chars × Chars) :=
  match cs with
  | '及' :: '以' :: '上' :: '附' :: '號' :: r => some (['及', '以', '上', '附', '號'], r)
  | '含' :: '附' :: '號' :: '以' :: '下' :: r => some (['含', '附', '號', '以', '下'], r)
  | '含' :: '附' :: '號' :: '全' :: r => some (['含', '附', '號', '全'], r)
  | '含' :: '附' :: '號' :: r => some (['含', '附', '號'], r)
  | '以' :: '下' :: r => some (['以', '下'], r)
  | '以' :: '上' :: r => some (['以', '上'], r)
  | '附' :: '號' :: '全' :: r => some (['附', '號', '全'], r)
  | c :: r =>
    if (c = '連' || c = '至' || c = '單' || c = '雙' || c = '全')
        && (headIsAsciiDigit r || headIs r '全' || r.isEmpty) then
      some ([c], r)
    else none
  | [] => none

/-- The scan of `Rule.part` without the leading normalization: scan for qualifier
tokens, collect them (the Python `set`), and build the residual string.
Every match consumes at least one character (`ruleTokMatch_rest_lt`), so
fuel equal to the input length suffices. -/
def partScan : Nat → Chars → List Chars × Chars
  | 0, cs => ([], cs)
  | _ + 1, [] => ([], [])
  | fuel + 1, c :: rest =>
    match ruleTokMatch (c :: rest) with
    | some (f, r) =>
      let pr := partScan fuel r
      ((if f = ['連'] then pr.1 else if f ∈ pr.1 then pr.1 else f :: pr.1),
       (if f = ['附', '號', '全'] then '號' :: pr.2 else pr.2))
    | none =>
      let pr := partScan fuel rest
      (pr.1, c :: pr.2)

/-- A parsed rule: the qualifier set (as a duplicate-free list) and the
tokens of the residual address. -/
structure Rule where
  ruleTokens : List Chars
  tokens : List Token
deriving DecidableEq, Repr

/-- The constructor `Rule.__init__`: `part` normalizes the rule string; `Address.__init__`
then tokenizes the residual (normalizing it a second time). -/
def mkRule (s : Chars) : Rule :=
  let pr := partScan (normalize s).length (normalize s)
  { ruleTokens := pr.1, tokens := tokenize pr.2 }

/-- Python tuple comparison `a <= b` on `(no, subno)` pairs. -/
def pairLe (a b : Nat × Nat) : Bool := a.1 < b.1 || (a.1 = b.1 && a.2 ≤ b.2)

/-- The predicate tested for one qualifier inside `Rule.match`; a qualifier
with no branch (such as 全 or 含附號全) imposes nothing. -/
def ruleTokOk (rts : List Chars) (his mine mineAsst : Nat × Nat) (rt : Chars) : Bool :=
  if rt = ['單'] then his.1 % 2 = 1
  else if rt = ['雙'] then his.1 % 2 = 0
  else if rt = ['以', '上'] then pairLe mine his
  else if rt = ['以', '下'] then pairLe his mine
  else if rt = ['至'] then
    (pairLe mineAsst his && pairLe his mine)
      || (['含', '附', '號', '全'] ∈ rts && his.1 = mine.1)
  else if rt = ['含', '附', '號'] then his.1 = mine.1
  else if rt = ['附', '號', '全'] then his.1 = mine.1 && 0 < his.2
  else if rt = ['及', '以', '上', '附', '號'] then pairLe mine his
  else if rt = ['含', '附', '號', '以', '下'] then pairLe his mine || his.1 = mine.1
  else true

/-- The exact-equality loop of `Rule.match`: rule and address tokens agree
at indices `0 .. n-1`. -/
def tokensAgree (rs as : List Token) (n : Nat) : Bool :=
  (List.range n).all fun i => decide (rs.get? i = as.get? i)

/-- The predicate `Rule.match(addr)`. -/
def ruleMatch (R : Rule) (A : List Token) : Bool :=
  let myLast : Int := (R.tokens.length : Int) - 1
    - (if R.ruleTokens ≠ [] ∧ ['全'] ∉ R.ruleTokens then 1 else 0)
    - (if ['至'] ∈ R.ruleTokens then 1 else 0)
  if myLast ≥ (A.length : Int) then false
  else if ¬ tokensAgree R.tokens A (myLast + 1).toNat then false
  else
    let his := parseTok A (myLast + 1)
    if R.ruleTokens ≠ [] ∧ his = (0, 0) then false
    else
      let mine := parseTok R.tokens (-1)
      let mineAsst := parseTok R.tokens (-2)
      R.ruleTokens.all (ruleTokOk R.ruleTokens his mine mineAsst)

/-! ### The directory state: the `precise` and `gradual` tables -/

/-- The two keyed tables of the backing store, with rows in insertion
order (the stable iteration order of an unordered query). -/
structure DB where
  precise : List ((Chars × Chars) × Chars)
  gradual : List (Chars × Chars)
deriving DecidableEq, Repr

def dbEmpty : DB := { precise := [], gradual := [] }

/-- The character-wise longest common part loop of
`Directory.get_common_part` (both strings non-empty). -/
def gcpLoop : Chars → Chars → Chars
  | a :: as', b :: bs' => if a = b then a :: gcpLoop as' bs' else []
  | _, _ => []

/-- The function `Directory.get_common_part`.  The source's `for`/`else` adds one to the
index when the range `range(min(len a, len b))` is empty, so an empty new
string keeps the first character of the stored one. -/
def get_common_part : Option Chars → Chars → Chars
  | none, b => b
  | some a, b => if a.isEmpty || b.isEmpty then a.take 1 else gcpLoop a b

/-- Raw fetch of the `gradual` row for a key. -/
def gradualGet (db : DB) (a : Chars) : Option Chars :=
  (db.gradual.find? (fun p => p.1 = a)).map (·.2)

/-- Lookup of a `precise` row by its composite key. -/
def preciseGet (db : DB) (a r : Chars) : Option Chars :=
  (db.precise.find? (fun p => p.1 = (a, r))).map (·.2)

/-- The insert `Directory.put_precise`: `insert or ignore` on the primary key. -/
def put_precise (db : DB) (a r z : Chars) : DB :=
  if db.precise.any (fun p => p.1 = (a, r)) then db
  else { db with precise := db.precise ++ [((a, r), z)] }

/-- The upsert `Directory.put_gradual`: read the stored zipcode and `replace` the row
with the common part of the old and new values. -/
def put_gradual (db : DB) (a z : Chars) : DB :=
  match gradualGet db a with
  | some _ =>
    { db with gradual :=
        db.gradual.map (fun p => if p.1 = a then (a, get_common_part (gradualGet db a) z) else p) }
  | none => { db with gradual := db.gradual ++ [(a, get_common_part none z)] }

/-- The builder step `Directory.put`: one precise row plus the gradual fan-out of all
contiguous token slices, and the skip-the-middle key for long addresses. -/
def dir_put (db : DB) (head tail z : Chars) : DB :=
  let ts := tokenize head
  let n := ts.length
  let db1 := put_precise db (flatList ts) (head ++ tail) z
  let db2 := (List.range n).foldl
    (fun d f => (List.range' f (n - f)).foldl
      (fun d2 l => put_gradual d2 (flatSlice ts f (l + 1)) z) d) db1
  if 3 ≤ n then
    put_gradual db2 (flatToken (ts.getD 0 default) ++ flatToken (ts.getD 2 default)) z
  else db2

/-- The query `Directory.get_rule_str_zipcode_pairs`. -/
def preciseRows (db : DB) (key : Chars) : List (Chars × Chars) :=
  (db.precise.filter (fun p => p.1.1 = key)).map (fun p => (p.1.2, p.2))

/-- The loop of `Directory.find`, with `i` the current prefix length. -/
def findLoop (db : DB) (A : List Token) : Nat → Chars
  | 0 => []
  | i + 1 =>
    let key := flatTake A (i + 1)
    match (preciseRows db key).find? (fun p => ruleMatch (mkRule p.1) A) with
    | some p => p.2
    | none =>
      match gradualGet db key with
      | some z => if z.isEmpty then findLoop db A i else z
      | none => findLoop db A i

/-- The lookup `Directory.find`. -/
def find (db : DB) (s : Chars) : Chars :=
  let A := standardTokens s
  findLoop db A A.length

/-- One prefix length of the lookup, as the specification describes it:
the zipcode of the first stored rule that matches, else the gradual value
when present and non-empty. -/
def findHit (db : DB) (A : List Token) (i : Nat) : Option Chars :=
  match (preciseRows db (flatTake A i)).find? (fun p => ruleMatch (mkRule p.1) A) with
  | some p => some p.2
  | none =>
    match gradualGet db (flatTake A i) with
    | some z => if z.isEmpty then none else some z
    | none => none

/-- The lookup as the specification describes it: scan prefix lengths from
the number of tokens down to 1 and return the first hit, else the empty
string. -/
def findSpec (db : DB) (s : Chars) : Chars :=
  let A := standardTokens s
  (((List.range A.length).map (fun k => A.length - k)).findSome? (findHit db A)).getD []

/-! ### `Directory.load_chp_csv` -/

/-- Process one CSV data row: first field is the zipcode, last field the
rule string, the joined middle fields the head address. -/
def putRow (db : DB) (row : List Chars) : DB :=
  dir_put db ((row.drop 1).dropLast.join) (row.getLastD []) (row.headD [])

/-- The row loop of `load_chp_csv`; an empty row raises (`row[0]`). -/
def processRows (db : DB) : List (List Chars) → Except Unit DB
  | [] => Except.ok db
  | row :: rs => if row.isEmpty then Except.error () else processRows (putRow db row) rs

/-- The bulk load `Directory.load_chp_csv` under its transaction wrapper, starting from
freshly created tables: rows are the already-split CSV lines; the first
line is the discarded header (`next` on an empty input raises).  An
`Except.error` result is a raised exception, i.e. the transaction was
rolled back and nothing persists; an `Except.ok` result is the committed
state. -/
def load_chp_csv (lines : List (List Chars)) : Except Unit DB :=
  match lines with
  | [] => Except.error ()
  | _hdr :: rows => processRows dbEmpty rows

/-- The character-wise longest common prefix of two strings (the
specification's description of what `get_common_part` computes). -/
def lcp2 : Chars → Chars → Chars
  | a :: as', b :: bs' => if a = b then a :: lcp2 as' bs' else []
  | _, _ => []

/-- Does `TO_REPLACE_RE` match anywhere in the string (with the given
start flag and preceding character)? -/
def hasReplaceMatch (atStart : Bool) (prev : Option Char) : Chars → Bool
  | [] => false
  | c :: rest => (toReplaceMatch atStart prev (c :: rest)).isSome || hasReplaceMatch false (some c) rest

/-! ### Supporting lemmas -/

lemma length_dropWhile_le (p : Char → Bool) (l : Chars) :
    (l.dropWhile p).length ≤ l.length := by
  induction l with
  | nil => simp [List.dropWhile]
  | cons c cs ih =>
    by_cases h : p c <;> simp [List.dropWhile, h] <;> omega

lemma lookTaiwan_rest_lt (cs f r : Chars) (h : lookTaiwan cs = some (f, r)) :
    r.length < cs.length := by
  unfold lookTaiwan at h
  repeat' split at h
  all_goals simp_all
  all_goals omega

lemma northCity_rest_lt (p : Option Char) (cs f r : Chars)
    (h : northCity p cs = some (f, r)) : r.length < cs.length := by
  unfold northCity at h
  repeat' split at h
  all_goals simp_all
  all_goals omega

lemma hanMatch_rest_lt (cs f r : Chars) (h : hanMatch cs = some (f, r)) :
    r.length < cs.length := by
  unfold hanMatch at h
  repeat' split at h
  all_goals simp_all
  all_goals omega

lemma toReplaceMatch_rest_lt (a : Bool) (p : Option Char) (cs f r : Chars)
    (h : toReplaceMatch a p cs = some (f, r)) : r.length < cs.length := by
  rcases cs with _ | ⟨c0, rest⟩
  · simp [toReplaceMatch] at h
  · simp only [toReplaceMatch] at h
    by_cases ha : (a && isAscii c0) = true
    · rw [if_pos ha] at h
      injection h with h1
      have h2 := congrArg Prod.snd h1
      simp only at h2
      have := length_dropWhile_le isAscii rest
      simp [← h2]
      omega
    · rw [if_neg ha] at h
      rcases hlt : lookTaiwan (c0 :: rest) with _ | fr
      · simp only [hlt] at h
        by_cases hsc : isSingleClass c0 = true
        · rw [if_pos hsc] at h
          injection h with h1
          have h2 := congrArg Prod.snd h1
          simp only at h2
          simp [← h2]
        · rw [if_neg hsc] at h
          rcases hnc : northCity p (c0 :: rest) with _ | fr2
          · simp only [hnc] at h
            by_cases hfw : isFullwidthDigit c0 = true
            · rw [if_pos hfw] at h
              injection h with h1
              have h2 := congrArg Prod.snd h1
              simp only at h2
              simp [← h2]
            · rw [if_neg hfw] at h
              exact hanMatch_rest_lt _ _ _ h
          · simp only [hnc] at h
            injection h with h1
            rw [h1] at hnc
            exact northCity_rest_lt _ _ _ _ hnc
      · simp only [hlt] at h
        injection h with h1
        rw [h1] at hlt
        exact lookTaiwan_rest_lt _ _ _ hlt

lemma nameTail_rest_le (name r : Chars) (t : Token) (r' : Chars)
    (h : nameTail name r = some (t, r')) : r'.length ≤ r.length := by
  unfold nameTail at h
  repeat' split at h
  all_goals simp_all
  all_goals omega

lemma nameGrow_rest_le (acc r : Chars) (t : Token) (r' : Chars)
    (h : nameGrow acc r = some (t, r')) : r'.length ≤ r.length := by
  induction r generalizing acc with
  | nil => simpa using nameTail_rest_le acc [] t r' (by simpa [nameGrow] using h)
  | cons c r2 ih =>
    rw [nameGrow] at h
    rcases h1 : nameTail acc (c :: r2) with _ | tr
    · rw [h1] at h
      simp only at h
      split at h
      · simp at h
      · have := ih (acc ++ [c]) h
        simp
        omega
    · rw [h1] at h
      injection h with h2
      rw [h2] at h1
      exact nameTail_rest_le _ _ _ _ h1

lemma noTailBare_rest_lt (ds r1 : Chars) (t : Token) (r' : Chars)
    (h : noTailBare ds r1 = some (t, r')) : r'.length < r1.length := by
  unfold noTailBare at h
  repeat' split at h
  all_goals simp_all

lemma subnoTry_rest_lt (cs : Chars) (sub r' : Chars)
    (h : subnoTry cs = some (sub, r')) : r'.length < cs.length := by
  rcases cs with _ | ⟨c, r⟩
  · simp [subnoTry] at h
  · rw [subnoTry] at h
    split at h
    · split at h
      · simp at h
      · injection h with h1
        have h2 := congrArg Prod.snd h1
        simp only at h2
        subst h2
        have := length_dropWhile_le isAsciiDigit r
        simp
        omega
    · simp at h

lemma dropWhile_lt_of_takeWhile_ne (p : Char → Bool) (cs : Chars)
    (h : ¬(cs.takeWhile p).isEmpty = true) :
    (cs.dropWhile p).length < cs.length := by
  rcases cs with _ | ⟨c0, rest⟩
  · simp [List.takeWhile] at h
  · by_cases hp : p c0 = true
    · rw [List.dropWhile_cons_of_pos hp]
      have := length_dropWhile_le p rest
      simp
      omega
    · exfalso
      rw [List.takeWhile_cons_of_neg (by simpa using hp)] at h
      simp at h

lemma noBranch_rest_lt (cs : Chars) (t : Token) (r : Chars)
    (h : noBranch cs = some (t, r)) : r.length < cs.length := by
  simp only [noBranch] at h
  split at h
  · simp at h
  · rename_i hne
    have hlen := dropWhile_lt_of_takeWhile_ne isAsciiDigit cs hne
    rcases h1 : subnoTry (cs.dropWhile isAsciiDigit) with _ | ⟨sub, r2⟩
    · rw [h1] at h
      have := noTailBare_rest_lt _ _ _ _ h
      omega
    · rw [h1] at h
      have hsub := subnoTry_rest_lt _ _ _ h1
      rcases r2 with _ | ⟨u, r3⟩
      · have := noTailBare_rest_lt _ _ _ _ h
        omega
      · simp only at h
        split at h
        · injection h with h2
          have h3 := congrArg Prod.snd h2
          simp only at h3
          subst h3
          simp at hsub
          omega
        · have := noTailBare_rest_lt _ _ _ _ h
          omega

lemma nameStart_rest_lt (cs : Chars) (t : Token) (r' : Chars)
    (h : nameStart cs = some (t, r')) : r'.length + 2 ≤ cs.length := by
  rcases cs with _ | ⟨c0, _ | ⟨c1, r2⟩⟩
  · simp [nameStart] at h
  · simp [nameStart] at h
  · rw [nameStart] at h
    split at h
    · have := nameGrow_rest_le _ _ _ _ h
      simp
      omega
    · simp at h

lemma tokenMatch_rest_lt (cs : Chars) (t : Token) (r : Chars)
    (h : tokenMatch cs = some (t, r)) : r.length < cs.length := by
  unfold tokenMatch at h
  rcases h1 : noBranch cs with _ | tr
  · rw [h1] at h
    rcases cs with _ | ⟨c0, r0⟩
    · simp at h
    · simp only at h
      split at h
      · rcases h2 : nameTail [c0] r0 with _ | tr2
        · rw [h2] at h
          simp only at h
          have := nameStart_rest_lt _ _ _ h
          simp at this ⊢
          omega
        · rw [h2] at h
          injection h with h3
          rw [h3] at h2
          have := nameTail_rest_le _ _ _ _ h2
          simp
          omega
      · have := nameStart_rest_lt _ _ _ h
        simp at this ⊢
        omega
  · rw [h1] at h
    injection h with h2
    rw [h2] at h1
    exact noBranch_rest_lt _ _ _ h1

lemma ruleTokMatch_rest_lt (cs f r : Chars) (h : ruleTokMatch cs = some (f, r)) :
    r.length < cs.length := by
  unfold ruleTokMatch at h
  repeat' split at h
  all_goals simp_all
  all_goals omega

lemma normScan_of_no_match (fuel : Nat) : ∀ (cs : Chars) a p,
    hasReplaceMatch a p cs = false → normScan fuel a p cs = cs := by
  induction fuel with
  | zero => intro cs a p _; rfl
  | succ fuel ih =>
    intro cs a p h
    cases cs with
    | nil => rfl
    | cons c rest =>
      rw [hasReplaceMatch] at h
      simp only [Bool.or_eq_false_iff] at h
      rw [normScan]
      rcases h1 : toReplaceMatch a p (c :: rest) with _ | fr
      · simp only
        rw [ih rest false (some c) h.2]
      · rw [h1] at h
        simp at h

lemma gcpLoop_eq_lcp2 (a b : Chars) : gcpLoop a b = lcp2 a b := by
  induction a generalizing b with
  | nil => cases b <;> rfl
  | cons x as' ih =>
    cases b with
    | nil => rfl
    | cons y bs' =>
      show (if x = y then x :: gcpLoop as' bs' else [])
        = (if x = y then x :: lcp2 as' bs' else [])
      rw [ih]

lemma get_common_part_some (a b : Chars) (hb : b ≠ []) :
    get_common_part (some a) b = lcp2 a b := by
  cases a with
  | nil => cases b with
    | nil => exact absurd rfl hb
    | cons y bs' => rfl
  | cons x as' =>
    cases b with
    | nil => exact absurd rfl hb
    | cons y bs' =>
      rw [get_common_part]
      simp [gcpLoop_eq_lcp2]

lemma lcp2_isPre (a b : Chars) : lcp2 a b <+: a := by
  induction a generalizing b with
  | nil => simp [lcp2]
  | cons x as' ih =>
    cases b with
    | nil =>
      show ([] : Chars) <+: x :: as'
      exact List.nil_prefix
    | cons y bs' =>
      show (if x = y then x :: lcp2 as' bs' else []) <+: x :: as'
      split
      · obtain ⟨t, ht⟩ := ih bs'
        exact ⟨t, by simp [ht]⟩
      · exact List.nil_prefix

lemma find?_append_none {p : Chars × Chars → Bool} (l : List (Chars × Chars)) (x : Chars × Chars)
    (h : l.find? p = none) : (l ++ [x]).find? p = if p x then some x else none := by
  induction l with
  | nil => cases hx : p x <;> simp [List.find?, hx]
  | cons q l ih =>
    rw [List.find?] at h
    rcases hq : p q with _ | _
    · rw [hq] at h
      simp only [List.cons_append, List.find?, hq]
      exact ih h
    · rw [hq] at h
      simp at h

lemma find?_map_update (l : List (Chars × Chars)) (k m : Chars)
    (h : ∃ q ∈ l, q.1 = k) :
    (l.map (fun p => if p.1 = k then (k, m) else p)).find? (fun p => decide (p.1 = k))
      = some (k, m) := by
  induction l with
  | nil => simp at h
  | cons q0 l ih =>
    by_cases h0 : q0.1 = k
    · simp [List.find?, h0]
    · obtain ⟨q, hq, hqk⟩ := h
      rcases List.mem_cons.mp hq with h1 | h1
      · exact absurd (h1 ▸ hqk) h0
      · simp only [List.map_cons, if_neg h0, List.find?]
        rw [show (decide (q0.1 = k)) = false by simp [h0]]
        exact ih ⟨q, h1, hqk⟩

lemma gradualGet_put (db : DB) (k z : Chars) :
    gradualGet (put_gradual db k z) k = some (get_common_part (gradualGet db k) z) := by
  rcases h : gradualGet db k with _ | v
  · rw [put_gradual, h]
    simp only
    rw [gradualGet] at h ⊢
    simp only
    rcases h2 : db.gradual.find? (fun p => decide (p.1 = k)) with _ | q
    · rw [find?_append_none _ _ h2]
      simp [h]
    · rw [h2] at h
      simp at h
  · have hex : ∃ q ∈ db.gradual, q.1 = k := by
      rw [gradualGet] at h
      rcases h2 : db.gradual.find? (fun p => decide (p.1 = k)) with _ | q
      · rw [h2] at h; simp at h
      · exact ⟨q, List.mem_of_find?_eq_some h2, by simpa using List.find?_some h2⟩
    rw [put_gradual, h]
    simp only [gradualGet]
    rw [find?_map_update db.gradual k (get_common_part (some v) z) hex]
    rfl

lemma gradualGet_put_fold (ws : List Chars) : ∀ (db : DB) (k acc : Chars),
    gradualGet db k = some acc → (∀ w ∈ ws, w ≠ []) →
    gradualGet (List.foldl (fun d w => put_gradual d k w) db ws) k
      = some (List.foldl lcp2 acc ws) := by
  induction ws with
  | nil => intro db k acc h _; simpa using h
  | cons w ws ih =>
    intro db k acc h hne
    have h1 := gradualGet_put db k w
    rw [h, get_common_part_some _ _ (hne w (by simp))] at h1
    simpa using ih (put_gradual db k w) k (lcp2 acc w) h1 (fun v hv => hne v (by simp [hv]))

lemma processRows_ok (rows : List (List Chars)) : ∀ db : DB, (∀ r ∈ rows, r ≠ []) →
    processRows db rows = Except.ok (rows.foldl putRow db) := by
  induction rows with
  | nil => intro db _; rfl
  | cons row rs ih =>
    intro db hne
    rw [processRows, if_neg]
    · simpa using ih (putRow db row) (fun r hr => hne r (by simp [hr]))
    · simpa using hne row (by simp)

/-! ### The claims -/

/-- Claim C6: `precise[(k, r)]` is immutable after its first write — once a
value `z` is stored under `(k, r)`, a later `put_precise` with any `z'`
leaves the stored value equal to `z`. -/
theorem claim_C6 (db : DB) (k r z z' : Chars) (h : preciseGet db k r = some z) :
    preciseGet (put_precise db k r z') k r = some z := by
  rw [preciseGet] at h
  rcases h1 : db.precise.find? (fun p => decide (p.1 = (k, r))) with _ | q
  · rw [h1] at h; simp at h
  · have hmem : q ∈ db.precise := List.mem_of_find?_eq_some h1
    have hq := List.find?_some h1
    rw [put_precise, if_pos]
    · rw [preciseGet]
      exact h
    · exact List.any_eq_true.mpr ⟨q, hmem, hq⟩

theorem claim_C6_witness :
    preciseGet (put_precise { precise := [(((['a'], ['b']) : Chars × Chars), ['1'])], gradual := [] }
      ['a'] ['b'] ['2']) ['a'] ['b'] = some ['1'] :=
  claim_C6 { precise := [((['a'], ['b']), ['1'])], gradual := [] } ['a'] ['b'] ['1'] ['2'] (by decide)

/-- Claim C2, counterexample: with the empty string as the second zipcode
the stored value is the first character of the stored one (the source's
`for`/`else` increments the index on an empty range), not the longest
common prefix, which is empty. -/
theorem claim_C2_counterexample :
    gradualGet (List.foldl (fun d w => put_gradual d ['k'] w) dbEmpty [['1', '2'], []]) ['k']
        = some ['1']
      ∧ List.foldl lcp2 ['1', '2'] [[]] = [] := by
  constructor
  · rfl
  · rfl

/-- Claim C2, amended: provided every zipcode written under `k` is
non-empty, the stored value equals the character-wise longest common
prefix of all of them; and a further `put_gradual` with a non-empty
zipcode stores a prefix of the current value, so the value only
shortens. -/
theorem claim_C2_amended :
    (∀ (db : DB) (k z : Chars) (zs : List Chars), gradualGet db k = none → z ≠ [] →
      (∀ w ∈ zs, w ≠ []) →
      gradualGet (List.foldl (fun d w => put_gradual d k w) db (z :: zs)) k
        = some (List.foldl lcp2 z zs))
    ∧ (∀ (db : DB) (k v w : Chars), gradualGet db k = some v → w ≠ [] →
      gradualGet (put_gradual db k w) k = some (lcp2 v w) ∧ lcp2 v w <+: v) := by
  constructor
  · intro db k z zs h hz hzs
    have h1 := gradualGet_put db k z
    rw [h] at h1
    simp only [get_common_part] at h1
    simpa using gradualGet_put_fold zs (put_gradual db k z) k z h1 hzs
  · intro db k v w h hw
    have h1 := gradualGet_put db k w
    rw [h, get_common_part_some _ _ hw] at h1
    exact ⟨h1, lcp2_isPre v w⟩

theorem claim_C2_amended_witness :
    gradualGet (List.foldl (fun d w => put_gradual d ['k'] w) dbEmpty
        [['1', '0', '0'], ['1', '0', '6']]) ['k']
      = some (List.foldl lcp2 ['1', '0', '0'] [['1', '0', '6']]) :=
  claim_C2_amended.1 dbEmpty ['k'] ['1', '0', '0'] [['1', '0', '6']]
    (by decide) (by decide) (by decide)

/-- Claim C7, counterexample: a data row with only two fields does not
abort the load; the row is processed (zipcode from the first field, rule
from the last, empty head address) and the transaction commits with the
row persisted. -/
theorem claim_C7_counterexample :
    load_chp_csv [[['h']], [['1', '0', '0'], ['全']]]
      = Except.ok { precise := [(([], ['全']), ['1', '0', '0'])], gradual := [] } := by
  rfl

/-- Claim C7, amended: a malformed data row with fewer than three fields
but at least one field does not abort the bulk load: every row with at
least one field is processed (first field as zipcode, last as rule
string, joined middle as head address) and the load commits the folded
state.  Only a row with no fields at all raises and rolls back. -/
theorem claim_C7_amended (hdr : List Chars) (rows : List (List Chars))
    (h : ∀ r ∈ rows, r ≠ []) :
    load_chp_csv (hdr :: rows) = Except.ok (rows.foldl putRow dbEmpty) :=
  processRows_ok rows dbEmpty h

theorem claim_C7_amended_witness :
    load_chp_csv [[['h']], [['1', '0', '0'], ['全']]]
      = Except.ok ([[['1', '0', '0'], ['全']]].foldl putRow dbEmpty) :=
  claim_C7_amended [['h']] [[['1', '0', '0'], ['全']]] (by decide)

/-- Claim C5, counterexample: the Han numeral 十 alone before 段 is not
converted — the rewrite pattern requires a trailing units digit — so
`normalize("忠孝東路十段")` is unchanged rather than `"忠孝東路10段"`. -/
theorem claim_C5_counterexample :
    normalize ['忠', '孝', '東', '路', '十', '段'] = ['忠', '孝', '東', '路', '十', '段']
      ∧ ['忠', '孝', '東', '路', '十', '段'] ≠ ['忠', '孝', '東', '路', '1', '0', '段'] := by
  constructor
  · rfl
  · decide

/-- Claim C5, amended: normalization converts a Han numeral of the shape
"optional units digit, optional 十, a units digit" (the values 1–9 and
11–99 that are not multiples of ten) before a unit character into ASCII
decimal; `一段` becomes `1段` and `九十九段` becomes `99段`, while the bare
tens numeral `十段` is left unchanged. -/
theorem claim_C5_amended :
    normalize ['忠', '孝', '東', '路', '一', '段'] = ['忠', '孝', '東', '路', '1', '段']
      ∧ normalize ['忠', '孝', '東', '路', '九', '十', '九', '段']
        = ['忠', '孝', '東', '路', '9', '9', '段']
      ∧ normalize ['忠', '孝', '東', '路', '十', '段'] = ['忠', '孝', '東', '路', '十', '段'] := by
  exact ⟨rfl, rfl, rfl⟩

/-- Claim C3, counterexample: normalization is not idempotent — the first
pass turns `一號` into `1號`, and a second pass deletes the now-leading
ASCII digit, yielding `號`. -/
theorem claim_C3_counterexample :
    normalize ['一', '號'] = ['1', '號']
      ∧ normalize (normalize ['一', '號']) ≠ normalize ['一', '號'] := by
  constructor
  · rfl
  · decide

/-- Claim C3, amended: a second normalization pass is the identity on
strings whose normal form contains no further match of the rewrite
pattern; in general the single, non-recursive pass is not idempotent
(counterexample `一號`). -/
theorem claim_C3_amended (s : Chars)
    (h : hasReplaceMatch true none (normalize s) = false) :
    normalize (normalize s) = normalize s :=
  normScan_of_no_match (normalize s).length (normalize s) true none h

theorem claim_C3_amended_witness :
    normalize (normalize ['臺', '南', '市']) = normalize ['臺', '南', '市'] :=
  claim_C3_amended ['臺', '南', '市'] (by decide)

/-! ### Lemmas about the standardization pass -/

lemma getD_drop (l : List Token) : ∀ s j, (l.drop s).getD j default = l.getD (s + j) default := by
  induction l with
  | nil => intro s j; simp
  | cons t ts ih =>
    intro s j
    cases s with
    | zero => simp
    | succ s' =>
      have : s' + 1 + j = (s' + j) + 1 := by omega
      rw [List.drop_succ_cons, this, List.getD_cons_succ, ih]

lemma drop_eq_getD_cons : ∀ (l : List Token) (j : Nat), j < l.length →
    l.drop j = l.getD j default :: l.drop (j + 1) := by
  intro l
  induction l with
  | nil => intro j h; simp at h
  | cons t ts ih =>
    intro j h
    cases j with
    | zero => rfl
    | succ j' =>
      rw [List.drop_succ_cons, List.getD_cons_succ]
      have h' : j' < ts.length := by simpa using h
      rw [ih j' h']
      rfl

lemma getD_mem_of_lt : ∀ (l : List Token) (j : Nat), j < l.length →
    l.getD j default ∈ l := by
  intro l
  induction l with
  | nil => intro j h; simp at h
  | cons t ts ih =>
    intro j h
    cases j with
    | zero => simp
    | succ j' =>
      rw [List.getD_cons_succ]
      exact List.mem_cons_of_mem t (ih j' (by simpa using h))

lemma mem_drop_of_le (l : List Token) (n m : Nat) (h : n ≤ m) :
    ∀ x ∈ l.drop m, x ∈ l.drop n := by
  intro x hx
  have he : l.drop m = (l.drop n).drop (m - n) := by
    rw [List.drop_drop]
    congr 1
    omega
  rw [he] at hx
  exact List.drop_subset _ _ hx

lemma scanFrom_lt (u : Char) : ∀ (l : List Token) (j : Nat),
    scanFrom u l = some j → j < l.length := by
  intro l
  induction l with
  | nil => intro j h; simp [scanFrom] at h
  | cons t ts ih =>
    intro j h
    rw [scanFrom] at h
    split at h
    · injection h with h1
      subst h1
      simp
    · rcases Option.map_eq_some'.mp h with ⟨j', hj', rfl⟩
      have := ih j' hj'
      simp
      omega

lemma scanFrom_unit (u : Char) : ∀ (l : List Token) (j : Nat),
    scanFrom u l = some j → (l.getD j default).unit = [u] := by
  intro l
  induction l with
  | nil => intro j h; simp [scanFrom] at h
  | cons t ts ih =>
    intro j h
    rw [scanFrom] at h
    split at h
    · injection h with h1
      subst h1
      simpa using by assumption
    · rcases Option.map_eq_some'.mp h with ⟨j', hj', rfl⟩
      rw [List.getD_cons_succ]
      exact ih j' hj'

lemma scanFrom_none (u : Char) : ∀ (l : List Token),
    scanFrom u l = none ↔ ∀ t ∈ l, t.unit ≠ [u] := by
  intro l
  induction l with
  | nil => simp [scanFrom]
  | cons t ts ih =>
    rw [scanFrom]
    split
    · rename_i ht
      constructor
      · intro h; simp at h
      · intro h
        exact absurd ht (h t (by simp))
    · rename_i ht
      rw [Option.map_eq_none']
      constructor
      · intro h x hx
        rcases List.mem_cons.mp hx with h1 | h1
        · rw [h1]; exact ht
        · exact (ih.mp h) x h1
      · intro h
        exact ih.mpr (fun x hx => h x (List.mem_cons_of_mem t hx))

lemma scanUnitIdx_some (ts : List Token) (start : Nat) (u : Char) (i : Nat)
    (h : scanUnitIdx ts start u = some i) :
    ∃ j, i = start + j ∧ scanFrom u (ts.drop start) = some j := by
  rw [scanUnitIdx] at h
  rcases Option.map_eq_some'.mp h with ⟨j, hj, hi⟩
  exact ⟨j, hi.symm, hj⟩

lemma scanUnitIdx_none (ts : List Token) (start : Nat) (u : Char) :
    scanUnitIdx ts start u = none ↔ ∀ t ∈ ts.drop start, t.unit ≠ [u] := by
  rw [scanUnitIdx, Option.map_eq_none']
  exact scanFrom_none u (ts.drop start)

lemma selectFromGroup_none (ts : List Token) (start : Nat) : ∀ (g : List Char),
    selectFromGroup ts start g = none ↔ ∀ u ∈ g, scanUnitIdx ts start u = none := by
  intro g
  induction g with
  | nil => simp [selectFromGroup]
  | cons u us ih =>
    rw [selectFromGroup]
    rcases hu : scanUnitIdx ts start u with _ | i
    · simp only
      constructor
      · intro h v hv
        rcases List.mem_cons.mp hv with h1 | h1
        · rw [h1]; exact hu
        · exact (ih.mp h) v h1
      · intro h
        exact ih.mpr (fun v hv => h v (List.mem_cons_of_mem u hv))
    · simp only
      constructor
      · intro h; simp at h
      · intro h
        exact absurd hu (by rw [h u (by simp)]; simp)

lemma selectFromGroup_some_spec (ts : List Token) (start : Nat) : ∀ (g : List Char) (i : Nat),
    selectFromGroup ts start g = some i →
    ∃ us₁ u us₂, g = us₁ ++ u :: us₂
      ∧ (∀ u' ∈ us₁, scanUnitIdx ts start u' = none)
      ∧ scanUnitIdx ts start u = some i := by
  intro g
  induction g with
  | nil => intro i h; simp [selectFromGroup] at h
  | cons u us ih =>
    intro i h
    rw [selectFromGroup] at h
    rcases hu : scanUnitIdx ts start u with _ | i'
    · rw [hu] at h
      rcases ih i h with ⟨us₁, v, us₂, hg, hn, hv⟩
      exact ⟨u :: us₁, v, us₂, by rw [hg]; rfl,
        fun u' hu' => by
          rcases List.mem_cons.mp hu' with h1 | h1
          · rw [h1]; exact hu
          · exact hn u' h1,
        hv⟩
    · rw [hu] at h
      injection h with h1
      subst h1
      exact ⟨[], u, us, rfl, by simp, hu⟩

lemma selectFromGroup_split (ts : List Token) (start : Nat) (u : Char) (i : Nat) :
    ∀ (us₁ us₂ : List Char), (∀ u' ∈ us₁, scanUnitIdx ts start u' = none) →
    scanUnitIdx ts start u = some i →
    selectFromGroup ts start (us₁ ++ u :: us₂) = some i := by
  intro us₁
  induction us₁ with
  | nil =>
    intro us₂ _ hu
    rw [List.nil_append, selectFromGroup, hu]
  | cons v vs ih =>
    intro us₂ hn hu
    rw [List.cons_append, selectFromGroup, hn v (by simp)]
    exact ih us₂ (fun u' hu' => hn u' (List.mem_cons_of_mem v hu')) hu

lemma stdLoop_start_le : ∀ (gs : List (List Char)) (ts : List Token) (start : Nat),
    start ≤ (stdLoop ts start gs).2 := by
  intro gs
  induction gs with
  | nil => intro ts start; exact Nat.le_refl start
  | cons g gs ih =>
    intro ts start
    rw [stdLoop]
    rcases hsel : selectFromGroup ts start g with _ | i
    · exact ih ts start
    · simp only
      rcases selectFromGroup_some_spec ts start g i hsel with ⟨us₁, u, us₂, hg, hn, hu⟩
      rcases scanUnitIdx_some ts start u i hu with ⟨j, hij, hj⟩
      have := ih ts (i + 1)
      omega

lemma stdLoop_sublist : ∀ (gs : List (List Char)) (ts : List Token) (start : Nat),
    List.Sublist ((stdLoop ts start gs).1 ++ ts.drop (stdLoop ts start gs).2)
      (ts.drop start) := by
  intro gs
  induction gs with
  | nil =>
    intro ts start
    rw [stdLoop]
    simpa using List.Sublist.refl (ts.drop start)
  | cons g gs ih =>
    intro ts start
    rw [stdLoop]
    rcases hsel : selectFromGroup ts start g with _ | i
    · exact ih ts start
    · simp only
      rcases selectFromGroup_some_spec ts start g i hsel with ⟨us₁, u, us₂, hg, hn, hu⟩
      rcases scanUnitIdx_some ts start u i hu with ⟨j, hij, hj⟩
      have hjlt := scanFrom_lt u (ts.drop start) j hj
      have hdrop : ts.drop (i + 1) = (ts.drop start).drop (j + 1) := by
        rw [List.drop_drop]
        congr 1
        omega
      have hgd : ts.getD i default = (ts.drop start).getD j default := by
        rw [getD_drop, hij]
      have hsub : List.Sublist ((stdLoop ts (i + 1) gs).1 ++ ts.drop (stdLoop ts (i + 1) gs).2)
          ((ts.drop start).drop (j + 1)) := by
        rw [← hdrop]
        exact ih ts (i + 1)
      have hcons := hsub.cons₂ ((ts.drop start).getD j default)
      have htrans := hcons.trans
        (List.sublist_append_right ((ts.drop start).take j)
          ((ts.drop start).getD j default :: (ts.drop start).drop (j + 1)))
      rw [← drop_eq_getD_cons (ts.drop start) j hjlt, List.take_append_drop] at htrans
      rw [hgd]
      exact htrans

lemma stdLoop_mem (gs : List (List Char)) (ts : List Token) (start : Nat) :
    ∀ x ∈ (stdLoop ts start gs).1, x ∈ ts.drop start := by
  intro x hx
  exact (stdLoop_sublist gs ts start).subset (List.mem_append_left _ hx)

lemma scanUnitIdx_cons_succ (x : Token) (l : List Token) (s : Nat) (u : Char) :
    scanUnitIdx (x :: l) (s + 1) u = (scanUnitIdx l s u).map Nat.succ := by
  rw [scanUnitIdx, scanUnitIdx, List.drop_succ_cons, Option.map_map]
  congr 1
  funext j
  simp
  omega

lemma selectFromGroup_cons_succ (x : Token) (l : List Token) (s : Nat) : ∀ (g : List Char),
    selectFromGroup (x :: l) (s + 1) g = (selectFromGroup l s g).map Nat.succ := by
  intro g
  induction g with
  | nil => rfl
  | cons u us ih =>
    rw [selectFromGroup, selectFromGroup, scanUnitIdx_cons_succ]
    rcases hu : scanUnitIdx l s u with _ | i
    · simpa using ih
    · rfl

lemma stdLoop_cons_succ : ∀ (gs : List (List Char)) (x : Token) (l : List Token) (s : Nat),
    stdLoop (x :: l) (s + 1) gs = ((stdLoop l s gs).1, (stdLoop l s gs).2 + 1) := by
  intro gs
  induction gs with
  | nil => intro x l s; rfl
  | cons g gs ih =>
    intro x l s
    rw [stdLoop, stdLoop, selectFromGroup_cons_succ]
    rcases hsel : selectFromGroup l s g with _ | i
    · simpa using ih x l s
    · simp only [Option.map_some']
      have hgd : (x :: l).getD (i + 1) default = l.getD i default := List.getD_cons_succ
      rw [hgd]
      have := ih x l (i + 1)
      rw [show Nat.succ i + 1 = (i + 1) + 1 from rfl, this]

lemma stdLoop_idem : ∀ (gs : List (List Char)) (ts : List Token) (start : Nat),
    stdLoop ((stdLoop ts start gs).1 ++ ts.drop (stdLoop ts start gs).2) 0 gs
      = ((stdLoop ts start gs).1, (stdLoop ts start gs).1.length) := by
  intro gs
  induction gs with
  | nil => intro ts start; rfl
  | cons g gs ih =>
    intro ts start
    rcases hsel : selectFromGroup ts start g with _ | i
    · have hred : stdLoop ts start (g :: gs) = stdLoop ts start gs := by
        rw [stdLoop, hsel]
      rw [hred]
      have hnone : selectFromGroup
          ((stdLoop ts start gs).1 ++ ts.drop (stdLoop ts start gs).2) 0 g = none := by
        rw [selectFromGroup_none]
        intro u hu
        rw [scanUnitIdx_none]
        intro t ht
        rw [List.drop_zero] at ht
        have hts : t ∈ ts.drop start := by
          rcases List.mem_append.mp ht with h1 | h1
          · exact stdLoop_mem gs ts start t h1
          · exact mem_drop_of_le ts start (stdLoop ts start gs).2
              (stdLoop_start_le gs ts start) t h1
        have := (scanUnitIdx_none ts start u).mp
          (((selectFromGroup_none ts start g).mp hsel) u hu)
        exact this t hts
      rw [stdLoop, hnone]
      exact ih ts start
    · have hred : stdLoop ts start (g :: gs)
          = (ts.getD i default :: (stdLoop ts (i + 1) gs).1, (stdLoop ts (i + 1) gs).2) := by
        rw [stdLoop, hsel]
      rcases selectFromGroup_some_spec ts start g i hsel with ⟨us₁, u, us₂, hg, hn, hu⟩
      rcases scanUnitIdx_some ts start u i hu with ⟨j, hij, hj⟩
      have hjlt := scanFrom_lt u (ts.drop start) j hj
      have hunit : (ts.getD i default).unit = [u] := by
        rw [show ts.getD i default = (ts.drop start).getD j default from by rw [getD_drop, hij]]
        exact scanFrom_unit u (ts.drop start) j hj
      have histart : start ≤ i := by omega
      have hfin : i + 1 ≤ (stdLoop ts (i + 1) gs).2 := stdLoop_start_le gs ts (i + 1)
      -- the reordered list and its members
      have hmem : ∀ t ∈ (stdLoop ts (i + 1) gs).1 ++ ts.drop (stdLoop ts (i + 1) gs).2,
          t ∈ ts.drop start := by
        intro t ht
        rcases List.mem_append.mp ht with h1 | h1
        · exact mem_drop_of_le ts start (i + 1) (by omega)
            t (stdLoop_mem gs ts (i + 1) t h1)
        · exact mem_drop_of_le ts start (stdLoop ts (i + 1) gs).2 (by omega) t h1
      have hsel0 : selectFromGroup
          (ts.getD i default :: ((stdLoop ts (i + 1) gs).1 ++ ts.drop (stdLoop ts (i + 1) gs).2))
          0 g = some 0 := by
        rw [hg]
        apply selectFromGroup_split
        · intro u' hu'
          rw [scanUnitIdx_none]
          intro t ht
          rw [List.drop_zero] at ht
          have hnone := (scanUnitIdx_none ts start u').mp (hn u' hu')
          rcases List.mem_cons.mp ht with h1 | h1
          · rw [h1]
            apply hnone
            rw [show ts.getD i default = (ts.drop start).getD j default from by
              rw [getD_drop, hij]]
            exact getD_mem_of_lt (ts.drop start) j hjlt
          · exact hnone t (hmem t h1)
        · rw [scanUnitIdx, List.drop_zero, scanFrom, if_pos hunit]
          rfl
      rw [hred, List.cons_append, stdLoop, hsel0]
      simp only
      have hshift := stdLoop_cons_succ gs (ts.getD i default)
        ((stdLoop ts (i + 1) gs).1 ++ ts.drop (stdLoop ts (i + 1) gs).2) 0
      rw [List.getD_cons_zero, hshift, ih ts (i + 1)]
      rfl

lemma standardize_idem (ts : List Token) : standardize (standardize ts) = standardize ts := by
  rw [standardize, standardize]
  have h := stdLoop_idem levelUnitsList ts 0
  rw [h]
  simp only
  rw [List.drop_left]

lemma tokensAgree_iff (rs as : List Token) (h : rs.length ≤ as.length) :
    tokensAgree rs as rs.length = true ↔ rs = as.take rs.length := by
  rw [tokensAgree, List.all_eq_true]
  constructor
  · intro hall
    apply List.ext_get?
    intro m
    by_cases hm : m < rs.length
    · have hi := hall m (List.mem_range.mpr hm)
      simp only [decide_eq_true_eq] at hi
      rw [hi, List.get?_take hm]
    · have h1 : rs.get? m = none := List.get?_eq_none.mpr (by omega)
      have h2 : (as.take rs.length).get? m = none := by
        apply List.get?_eq_none.mpr
        simp only [List.length_take]
        omega
      rw [h1, h2]
  · intro heq i hi
    simp only [List.mem_range] at hi
    simp only [decide_eq_true_eq]
    rw [heq, List.get?_take hi]

/-- Claim C9: a rule with an empty qualifier set matches exactly the
addresses whose first `len(R)` tokens equal the rule's tokens; no numeric
condition on the rest of the address is imposed. -/
theorem claim_C9 (R : Rule) (A : List Token) (h : R.ruleTokens = []) :
    ruleMatch R A = true ↔
      R.tokens.length ≤ A.length ∧ R.tokens = A.take R.tokens.length := by
  simp only [ruleMatch, h, ne_eq, not_true_eq_false, false_and, if_false,
    List.not_mem_nil, List.all_nil, sub_zero, ite_false]
  split
  · rename_i hg
    refine iff_of_false (by simp) ?_
    rintro ⟨hle, -⟩
    omega
  · rename_i hg
    have hle : R.tokens.length ≤ A.length := by omega
    have htn : ((R.tokens.length : Int) - 1 + 1).toNat = R.tokens.length := by omega
    rw [htn]
    split
    · rename_i hag
      refine iff_of_false (by simp) ?_
      rintro ⟨-, heq⟩
      exact hag ((tokensAgree_iff R.tokens A hle).mpr heq)
    · rename_i hag
      rw [not_not] at hag
      exact iff_of_true rfl ⟨hle, (tokensAgree_iff R.tokens A hle).mp hag⟩

theorem claim_C9_witness :
    ruleMatch (mkRule ['信', '義', '路']) (tokenize ['信', '義', '路', '5', '號']) = true :=
  (claim_C9 (mkRule ['信', '義', '路']) (tokenize ['信', '義', '路', '5', '號'])
    (by rfl)).mpr ⟨by decide, by rfl⟩

/-- Claim C4, counterexample: a rule whose qualifier set is exactly {全}
whose tokens equal the address's tokens tuple-for-tuple does not match —
`match` additionally requires the next address token to parse to a
non-zero pair, which fails when the address has no further token. -/
theorem claim_C4_counterexample :
    (mkRule ['信', '義', '路', '全']).ruleTokens = [['全']]
      ∧ (mkRule ['信', '義', '路', '全']).tokens
        = (tokenize ['信', '義', '路']).take (mkRule ['信', '義', '路', '全']).tokens.length
      ∧ ruleMatch (mkRule ['信', '義', '路', '全']) (tokenize ['信', '義', '路']) = false := by
  exact ⟨rfl, rfl, rfl⟩

/-- Claim C4, amended: for a rule whose qualifier set is exactly {全},
`match` holds exactly when the rule's tokens equal the address's first
`len(R)` tokens and additionally `addr.parse(len(R))` is a non-zero pair
(so the address must continue with a numbered token). -/
theorem claim_C4_amended (R : Rule) (A : List Token) (h : R.ruleTokens = [['全']]) :
    ruleMatch R A = true ↔
      R.tokens = A.take R.tokens.length
        ∧ parseTok A (R.tokens.length : Int) ≠ (0, 0) := by
  have hall : ∀ his mine ma,
      List.all [['全']] (ruleTokOk [['全']] his mine ma) = true := fun _ _ _ => rfl
  simp only [ruleMatch, h]
  have h1 : ¬((([['全']] : List Chars) ≠ []) ∧ ['全'] ∉ ([[('全' : Char)]] : List Chars)) := by
    simp
  have h2 : (['至'] : Chars) ∉ ([[('全' : Char)]] : List Chars) := by decide
  rw [if_neg h1, if_neg h2]
  simp only [sub_zero]
  split
  · rename_i hg
    refine iff_of_false (by simp) ?_
    rintro ⟨heq, -⟩
    have := congrArg List.length heq
    simp only [List.length_take] at this
    omega
  · rename_i hg
    have hle : R.tokens.length ≤ A.length := by omega
    have htn : ((R.tokens.length : Int) - 1 + 1).toNat = R.tokens.length := by omega
    have hti : ((R.tokens.length : Int) - 1 + 1) = (R.tokens.length : Int) := by omega
    rw [htn, hti]
    split
    · rename_i hag
      refine iff_of_false (by simp) ?_
      rintro ⟨heq, -⟩
      exact absurd ((tokensAgree_iff R.tokens A hle).mpr heq) hag
    · rename_i hag
      rw [not_not] at hag
      split
      · rename_i hp
        refine iff_of_false (by simp) ?_
        rintro ⟨-, hne⟩
        exact hne hp.2
      · rename_i hp
        rw [hall]
        refine iff_of_true rfl ⟨(tokensAgree_iff R.tokens A hle).mp hag, ?_⟩
        intro hc
        exact hp ⟨by simp, hc⟩

theorem claim_C4_amended_witness :
    ruleMatch (mkRule ['信', '義', '路', '全']) (tokenize ['信', '義', '路', '5', '號']) = true :=
  (claim_C4_amended (mkRule ['信', '義', '路', '全'])
    (tokenize ['信', '義', '路', '5', '號']) (by rfl)).mpr ⟨by rfl, by decide⟩


/-- Claim C10: the token sequence of a `StandardAddress` is an in-order
subsequence of the plain tokenization of the same string — the
standardization pass never swaps retained tokens, and every token the
cursor passes over is dropped. -/
theorem claim_C10 (s : Chars) : List.Sublist (standardTokens s) (tokenize s) := by
  rw [standardTokens, standardize]
  simpa using stdLoop_sublist levelUnitsList (tokenize s) 0

/-- Claim C8, counterexample: standardization is not stable through
`flat()` — `StandardAddress("一號")` has the single token `(1,,,號)` whose
flat form is `1號`, but re-standardizing `1號` first normalizes it, which
deletes the leading ASCII digit and leaves no tokens at all. -/
theorem claim_C8_counterexample :
    standardTokens (flatList (standardTokens ['一', '號'])) ≠ standardTokens ['一', '號'] := by
  decide

/-- Claim C8, amended: the reordering pass itself is stable —
standardizing the token sequence of a standard address again yields
exactly the same token sequence; stability fails only through the
flatten-and-retokenize round trip, where normalization can alter the
flattened string. -/
theorem claim_C8_amended (s : Chars) :
    standardize (standardize (tokenize s)) = standardize (tokenize s) :=
  standardize_idem (tokenize s)

/-- Claim C1: `find` builds the standard address and scans prefix lengths
from the token count down to 1, returning at each length the zipcode of
the first stored rule that matches, else a present non-empty gradual
value, and the empty string when no length hits (in particular for an
address with no tokens). -/
theorem claim_C1 (db : DB) (s : Chars) : find db s = findSpec db s := by
  rw [find, findSpec]
  generalize standardTokens s = A
  have main : ∀ n : Nat,
      findLoop db A n
        = ((((List.range n).map (fun k => n - k)).findSome? (findHit db A)).getD []) := by
    intro n
    induction n with
    | zero => rfl
    | succ m ih =>
      rw [List.range_succ_eq_map]
      simp only [List.map_cons, Nat.sub_zero, List.map_map]
      rw [List.findSome?_cons]
      have hmap : (List.range m).map ((fun k => m + 1 - k) ∘ Nat.succ)
          = (List.range m).map (fun k => m - k) := by
        apply List.map_congr_left
        intro k hk
        simp only [Function.comp]
        omega
      rw [hmap]
      rw [findLoop]
      rw [findHit]
      rcases hfind : (preciseRows db (flatTake A (m + 1))).find?
          (fun p => ruleMatch (mkRule p.1) A) with _ | q
      · rw [hfind]
        simp only
        rcases hg : gradualGet db (flatTake A (m + 1)) with _ | z
        · simpa using ih
        · simp only
          by_cases hz : z.isEmpty = true
          · rw [if_pos hz, if_pos hz]
            simpa using ih
          · rw [if_neg hz, if_neg hz]
            simp
      · rw [hfind]
        simp
  exact main A.length

end ZipcodeTW
